import Mathlib

/-!
Verification of the iterext lazy-sequence library (sync `Iter` in `sync.ts`,
async `AsyncIter` in `async.ts`) against its specification.

The pull-based iterator protocol is embedded as follows.  A raw source is a
function `Src α := Nat → Option α` giving the result of the n-th `next()`
call (`none` = `{done: true}`); a consumer holds a cursor counting how many
pulls it has issued, so the cursor value is exactly the number of elements
pulled from that source.  Each combinator's generator body is translated to a
micro-step machine `σ → MicroRes α σ`: one micro step performs at most one
pull from the parent and either yields an element, skips (internal loop
iteration that yields nothing, e.g. a filtered-out element), or halts (the
generator body returns).  `microRun` drains such a machine with explicit
fuel, returning the yielded elements, the final state (whose cursor
components count the pulls that happened) and whether the generator
finished.  JavaScript generator fusion — a finished generator reports
`done` forever without re-entering its body — is modelled by the relation
`MNext` over states `Option σ`, where `none` is the finished generator.

Value-level semantics of finite runs are given by list denotations: each
method of `Iter` (namespace `Iter`) and of `AsyncIter` (namespace
`AsyncIter`) is translated into a function on `List`, following the source's
loop structure.  A resolved JS promise is the wrapper `Promise` (its `await`
field is the awaited value); a function that can throw / reject is modelled
with `Except`.
-/

namespace Iterext

/-- A raw pull source: the value produced by the n-th `next()` call. -/
def Src (α : Type) : Type := Nat → Option α

/-- The source backing a finite sequence (a generator over a list). -/
def listSrc {α : Type} (l : List α) : Src α := fun n => l.get? n

/-- The source backing an infinite sequence whose n-th element is `f n`. -/
def streamSrc {α : Type} (f : Nat → α) : Src α := fun n => some (f n)

/-- Dropping the first pull of a source. -/
def shiftSrc {α : Type} (s : Src α) : Src α := fun n => s (n + 1)

/-- A misbehaving raw source: its first pull reports exhaustion, but the
next pull produces a value again. -/
def badSrc : Src Nat := fun n => if n = 0 then none else some 42

/-- `Iter.next` / `AsyncIter.next` delegate directly to the inner raw
iterator: pulling at cursor `c` returns the raw source's answer and
advances the cursor. -/
def rawNext {α : Type} (src : Src α) (c : Nat) : Option α × Nat :=
  (src c, c + 1)

/-- One micro step of a generator body: yield an element, finish one loop
iteration without yielding, or return from the body. -/
inductive MicroRes (α σ : Type) : Type where
  | yld (a : α) (s : σ) : MicroRes α σ
  | skip (s : σ) : MicroRes α σ
  | halt (s : σ) : MicroRes α σ

/-- Drain a micro-step machine for at most `fuel` micro steps: collect the
yielded elements, the state reached, and whether the body returned. -/
def microRun {α σ : Type} (micro : σ → MicroRes α σ) : Nat → σ → List α × σ × Bool
  | 0, s => ([], s, false)
  | fuel + 1, s =>
    match micro s with
    | .halt t => ([], t, true)
    | .skip t => microRun micro fuel t
    | .yld a t =>
      let r := microRun micro fuel t
      (a :: r.1, r.2)

theorem microRun_yld {α σ : Type} (micro : σ → MicroRes α σ) (fuel : Nat)
    (s t : σ) (a : α) (h : micro s = .yld a t) :
    microRun micro (fuel + 1) s =
      (a :: (microRun micro fuel t).1, (microRun micro fuel t).2) := by
  simp only [microRun, h]

theorem microRun_skip {α σ : Type} (micro : σ → MicroRes α σ) (fuel : Nat)
    (s t : σ) (h : micro s = .skip t) :
    microRun micro (fuel + 1) s = microRun micro fuel t := by
  simp only [microRun, h]

theorem microRun_halt {α σ : Type} (micro : σ → MicroRes α σ) (fuel : Nat)
    (s t : σ) (h : micro s = .halt t) :
    microRun micro (fuel + 1) s = ([], t, true) := by
  simp only [microRun, h]

/-! Micro-step machines, one per generator body in `sync.ts` (the async
bodies in `async.ts` are structurally identical pull-for-pull).  States
carry the cursor(s) into the raw source(s) plus whatever locals the body
keeps (`count`, `index`, pending array). -/

/-- `Iter.repeatWith`: `while (true) yield func(index++)`. -/
def repeatWithMicro {α : Type} (func : Nat → α) : Nat → MicroRes α Nat :=
  fun i => .yld (func i) (i + 1)

/-- `Iter.filter`: `for (item of iter) if (predicate(item)) yield item`. -/
def filterMicro {α : Type} (predicate : α → Bool) (src : Src α) :
    Nat → MicroRes α Nat :=
  fun c =>
    match src c with
    | none => .halt (c + 1)
    | some a => if predicate a then .yld a (c + 1) else .skip (c + 1)

/-- `Iter.filterMap`: yield `func(item)` when it is not `undefined`. -/
def filterMapMicro {α β : Type} (func : α → Option β) (src : Src α) :
    Nat → MicroRes β Nat :=
  fun c =>
    match src c with
    | none => .halt (c + 1)
    | some a =>
      match func a with
      | some b => .yld b (c + 1)
      | none => .skip (c + 1)

/-- `Iter.map`: `for (item of iter) yield func(item)`. -/
def mapMicro {α β : Type} (func : α → β) (src : Src α) :
    Nat → MicroRes β Nat :=
  fun c =>
    match src c with
    | none => .halt (c + 1)
    | some a => .yld (func a) (c + 1)

/-- `Iter.chain`: `yield* iter; for (nextIterator of next) yield* nextIterator`.
The state is the list of not-yet-exhausted sources, each with its cursor;
when the current source reports exhaustion the body moves to the next one. -/
def chainMicro {α : Type} :
    List (Src α × Nat) → MicroRes α (List (Src α × Nat)) :=
  fun s =>
    match s with
    | [] => .halt []
    | p :: rest =>
      match p.1 p.2 with
      | some a => .yld a ((p.1, p.2 + 1) :: rest)
      | none => .skip rest

/-- `Iter.zip`: each loop iteration pulls once from the left and once from
the right; if either pull reports exhaustion the body breaks, else it
yields the pair. -/
def zipMicro {α : Type} (srcL srcR : Src α) :
    Nat × Nat → MicroRes (α × α) (Nat × Nat) :=
  fun s =>
    match srcL s.1, srcR s.2 with
    | some a, some b => .yld (a, b) (s.1 + 1, s.2 + 1)
    | _, _ => .halt (s.1 + 1, s.2 + 1)

/-- `Iter.enumerate`: state is (cursor, index). -/
def enumerateMicro {α : Type} (src : Src α) :
    Nat × Nat → MicroRes (Nat × α) (Nat × Nat) :=
  fun s =>
    match src s.1 with
    | none => .halt (s.1 + 1, s.2)
    | some a => .yld (s.2, a) (s.1 + 1, s.2 + 1)

/-- `Iter.take`: state is (cursor, count); each iteration pulls, increments
`count`, and breaks when `count > limit`, else yields. -/
def takeMicro {α : Type} (limit : Nat) (src : Src α) :
    Nat × Nat → MicroRes α (Nat × Nat) :=
  fun s =>
    match src s.1 with
    | none => .halt (s.1 + 1, s.2)
    | some a =>
      if s.2 + 1 > limit then .halt (s.1 + 1, s.2 + 1)
      else .yld a (s.1 + 1, s.2 + 1)

/-- `Iter.skip`: state is (cursor, count); each iteration pulls, increments
`count`, and `continue`s while `count <= items`, else yields. -/
def skipMicro {α : Type} (items : Nat) (src : Src α) :
    Nat × Nat → MicroRes α (Nat × Nat) :=
  fun s =>
    match src s.1 with
    | none => .halt (s.1 + 1, s.2)
    | some a =>
      if s.2 + 1 ≤ items then .skip (s.1 + 1, s.2 + 1)
      else .yld a (s.1 + 1, s.2 + 1)

/-- `Iter.flat`: state is (cursor, pending inner elements); with an empty
pending array the body pulls the next inner array from the parent. -/
def flatMicro {β : Type} (src : Src (List β)) :
    Nat × List β → MicroRes β (Nat × List β) :=
  fun s =>
    match s.2 with
    | b :: pend => .yld b (s.1, pend)
    | [] =>
      match src s.1 with
      | none => .halt (s.1 + 1, [])
      | some item => .skip (s.1 + 1, item)

/-! Constructor states.  Each combinator method in the source builds the new
wrapper by calling the generator function (whose body does not run until the
first `next()`), so the initial state records the parent's cursor(s)
unchanged together with freshly-initialised locals. -/

/-- Initial state of the `filter` generator over a parent at cursor `c`. -/
def filterInit (c : Nat) : Nat := c

/-- Initial state of the `filterMap` generator. -/
def filterMapInit (c : Nat) : Nat := c

/-- Initial state of the `map` generator. -/
def mapInit (c : Nat) : Nat := c

/-- Initial state of the `chain` generator: the receiver followed by the
argument sequences, each with its current cursor. -/
def chainInit {α : Type} (parent : Src α × Nat) (next : List (Src α × Nat)) :
    List (Src α × Nat) := parent :: next

/-- Initial state of the `zip` generator: left and right cursors. -/
def zipInit (i j : Nat) : Nat × Nat := (i, j)

/-- Initial state of the `enumerate` generator: `index = 0`. -/
def enumerateInit (c : Nat) : Nat × Nat := (c, 0)

/-- Initial state of the `take` generator: `count = 0`. -/
def takeInit (c : Nat) : Nat × Nat := (c, 0)

/-- Initial state of the `skip` generator: `count = 0`. -/
def skipInit (c : Nat) : Nat × Nat := (c, 0)

/-- Initial state of the `flat` generator: no pending inner elements. -/
def flatInit (c : Nat) : Nat × List Nat := (c, [])

/-- Claim C1: every combinator (filter, filterMap, map, chain, zip,
enumerate, take, skip, flat) constructs its wrapper without pulling a
single element from the parent or from any argument sequence: the initial
generator state keeps every cursor exactly where the parent (and each
argument source) stood, and with zero downstream demand a run performs no
micro step, so no pull happens until a downstream consumer demands an
element. -/
theorem construction_pulls_nothing :
    (∀ c : Nat, filterInit c = c) ∧
    (∀ c : Nat, filterMapInit c = c) ∧
    (∀ c : Nat, mapInit c = c) ∧
    (∀ (α : Type) (parent : Src α × Nat) (next : List (Src α × Nat)),
      (chainInit parent next).map Prod.snd = parent.2 :: next.map Prod.snd) ∧
    (∀ i j : Nat, zipInit i j = (i, j)) ∧
    (∀ c : Nat, (enumerateInit c).1 = c) ∧
    (∀ c : Nat, (takeInit c).1 = c) ∧
    (∀ c : Nat, (skipInit c).1 = c) ∧
    (∀ c : Nat, (flatInit c).1 = c) ∧
    (∀ (α σ : Type) (micro : σ → MicroRes α σ) (s : σ),
      microRun micro 0 s = ([], s, false)) := by
  refine ⟨fun _ => rfl, fun _ => rfl, fun _ => rfl, ?_, fun _ _ => rfl,
    fun _ => rfl, fun _ => rfl, fun _ => rfl, fun _ => rfl, fun _ _ _ _ => rfl⟩
  intro α parent next
  simp [chainInit]

/-! Generator fusion.  A wrapper returned by a combinator is a JS generator
object: once its body returns, every later `next()` reports done without
re-entering the body.  `MNext m o m'` relates a wrapper state `m`
(`none` = finished generator) to the observation `o` of one `next()` call
and the state `m'` it leaves behind; skip micro steps are internal loop
iterations of the same `next()` call. -/
inductive MNext {α σ : Type} (micro : σ → MicroRes α σ) :
    Option σ → Option α → Option σ → Prop where
  | done : MNext micro none none none
  | yld : ∀ (s : σ) (a : α) (t : σ),
      micro s = .yld a t → MNext micro (some s) (some a) (some t)
  | halt : ∀ (s t : σ),
      micro s = .halt t → MNext micro (some s) none none
  | skip : ∀ (s t : σ) (o : Option α) (m : Option σ),
      micro s = .skip t → MNext micro (some t) o m → MNext micro (some s) o m

/-- Zero or more `next()` calls. -/
inductive MReaches {α σ : Type} (micro : σ → MicroRes α σ) :
    Option σ → Option σ → Prop where
  | refl : ∀ m : Option σ, MReaches micro m m
  | step : ∀ (m : Option σ) (o : Option α) (m' m'' : Option σ),
      MNext micro m o m' → MReaches micro m' m'' → MReaches micro m m''

/-- A machine is fused when, after any `next()` call that reports
exhaustion, every subsequent `next()` call also reports exhaustion. -/
def Fused {α σ : Type} (micro : σ → MicroRes α σ) : Prop :=
  ∀ m m', MNext micro m none m' →
    ∀ m'' o m''', MReaches micro m' m'' → MNext micro m'' o m''' → o = none

theorem mnext_none_state {α σ : Type} {micro : σ → MicroRes α σ} :
    ∀ {m : Option σ} {o : Option α} {m' : Option σ},
      MNext micro m o m' → o = none → m' = none := by
  intro m o m' h
  induction h with
  | done => intro _; rfl
  | yld s a t _ => intro hc; exact absurd hc (by simp)
  | halt s t _ => intro _; rfl
  | skip s t o m _ _ ih => exact ih

theorem mnext_of_none {α σ : Type} {micro : σ → MicroRes α σ}
    {o : Option α} {m' : Option σ} (h : MNext micro none o m') :
    o = none ∧ m' = none := by
  cases h
  exact ⟨rfl, rfl⟩

theorem mreaches_none {α σ : Type} {micro : σ → MicroRes α σ} :
    ∀ {m m' : Option σ}, MReaches micro m m' → m = none → m' = none := by
  intro m m' h
  induction h with
  | refl m => exact id
  | step m o m' m'' hn _ ih =>
    intro hm
    subst hm
    exact ih (mnext_of_none hn).2

theorem fused_all {α σ : Type} (micro : σ → MicroRes α σ) : Fused micro := by
  intro m m' hnone m'' o m''' hreach hnext
  have h1 : m' = none := mnext_none_state hnone rfl
  have h2 : m'' = none := mreaches_none hreach h1
  subst h2
  exact (mnext_of_none hnext).1

/-- Claim C9: every wrapper returned by a combinator — filter, filterMap,
map, chain, zip, enumerate, take, skip, flat, repeatWith, sync or async —
is fused: once one of its pulls reports exhaustion, all subsequent pulls
report exhaustion, for every raw source including misbehaving ones; but the
wrapper built directly around a raw source delegates `next()` unchecked, so
over the un-exhausting source `badSrc` its first pull reports exhaustion
and its second produces a value again. -/
theorem combinators_fused_raw_not :
    (∀ (predicate : Nat → Bool) (src : Src Nat),
      Fused (filterMicro predicate src)) ∧
    (∀ (func : Nat → Option Nat) (src : Src Nat),
      Fused (filterMapMicro func src)) ∧
    (∀ (func : Nat → Nat) (src : Src Nat), Fused (mapMicro func src)) ∧
    Fused (chainMicro (α := Nat)) ∧
    (∀ srcL srcR : Src Nat, Fused (zipMicro srcL srcR)) ∧
    (∀ src : Src Nat, Fused (enumerateMicro src)) ∧
    (∀ (limit : Nat) (src : Src Nat), Fused (takeMicro limit src)) ∧
    (∀ (items : Nat) (src : Src Nat), Fused (skipMicro items src)) ∧
    (∀ src : Src (List Nat), Fused (flatMicro src)) ∧
    (∀ func : Nat → Nat, Fused (repeatWithMicro func)) ∧
    ((rawNext badSrc 0).1 = none ∧
      (rawNext badSrc (rawNext badSrc 0).2).1 = some 42) :=
  ⟨fun p src => fused_all (filterMicro p src),
    fun f src => fused_all (filterMapMicro f src),
    fun f src => fused_all (mapMicro f src),
    fused_all chainMicro,
    fun sL sR => fused_all (zipMicro sL sR),
    fun src => fused_all (enumerateMicro src),
    fun n src => fused_all (takeMicro n src),
    fun n src => fused_all (skipMicro n src),
    fun src => fused_all (flatMicro src),
    fun f => fused_all (repeatWithMicro f),
    rfl, rfl⟩

/-- Witness for claim C9: the filter wrapper over the misbehaving `badSrc`
reports exhaustion on its first pull (the body returns), and the theorem
forces the following pull to report exhaustion as well, even though
`badSrc` produces an element on its second pull. -/
theorem combinators_fused_raw_not_witness : (none : Option Nat) = none :=
  combinators_fused_raw_not.1 (fun _ => true) badSrc (some 0) none
    (MNext.halt 0 1 rfl) none none none (MReaches.refl none) MNext.done

/-! Runs of the `take` machine. -/

theorem shift_listSrc {α : Type} (a : α) (t : List α) :
    shiftSrc (listSrc (a :: t)) = listSrc t := by
  funext n
  rfl

theorem take_shift {α : Type} (limit : Nat) (src : Src α) :
    ∀ (fuel : Nat) (c k : Nat),
      microRun (takeMicro limit src) fuel (c + 1, k) =
        (fun r => (r.1, (r.2.1.1 + 1, r.2.1.2), r.2.2))
          (microRun (takeMicro limit (shiftSrc src)) fuel (c, k)) := by
  intro fuel
  induction fuel with
  | zero => intro c k; rfl
  | succ fuel ih =>
    intro c k
    have hsrc : src (c + 1) = shiftSrc src c := rfl
    simp only [microRun, takeMicro, hsrc]
    cases h : shiftSrc src c with
    | none => rfl
    | some a =>
      by_cases hk : k + 1 > limit
      · simp [hk]
      · simp only [hk, if_neg, ite_false]
        rw [ih (c + 1) (k + 1)]

theorem take_count_shift {α : Type} (limit : Nat) (src : Src α) :
    ∀ (fuel : Nat) (c k : Nat),
      microRun (takeMicro (limit + 1) src) fuel (c, k + 1) =
        (fun r => (r.1, (r.2.1.1, r.2.1.2 + 1), r.2.2))
          (microRun (takeMicro limit src) fuel (c, k)) := by
  intro fuel
  induction fuel with
  | zero => intro c k; rfl
  | succ fuel ih =>
    intro c k
    simp only [microRun, takeMicro]
    cases h : src c with
    | none => rfl
    | some a =>
      by_cases hk : k + 1 > limit
      · have hk' : k + 1 + 1 > limit + 1 := by omega
        simp [hk, hk']
      · have hk' : ¬ k + 1 + 1 > limit + 1 := by omega
        simp only [hk, hk', ite_false]
        rw [ih (c + 1) (k + 1)]

theorem take_list_run {α : Type} :
    ∀ (l : List α) (k : Nat),
      (microRun (takeMicro k (listSrc l)) (l.length + 1) (takeInit 0)).1 =
        l.take k ∧
      (microRun (takeMicro k (listSrc l)) (l.length + 1) (takeInit 0)).2.2 =
        true := by
  intro l
  induction l with
  | nil =>
    intro k
    cases k with
    | zero => exact ⟨rfl, rfl⟩
    | succ k => exact ⟨rfl, rfl⟩
  | cons a t ih =>
    intro k
    cases k with
    | zero => exact ⟨rfl, rfl⟩
    | succ k =>
      have hshift :=
        take_shift (k + 1) (listSrc (a :: t)) (t.length + 1) 0 (0 + 1)
      rw [shift_listSrc] at hshift
      have hcount := take_count_shift k (listSrc t) (t.length + 1) 0 0
      rw [hcount] at hshift
      obtain ⟨h1, h2⟩ := ih k
      constructor
      · show a :: (microRun (takeMicro (k + 1) (listSrc (a :: t)))
            (t.length + 1) (0 + 1, 0 + 1)).1 = (a :: t).take (k + 1)
        rw [hshift]
        show a :: (microRun (takeMicro k (listSrc t))
            (t.length + 1) (takeInit 0)).1 = (a :: t).take (k + 1)
        rw [h1]
        rfl
      · show (microRun (takeMicro (k + 1) (listSrc (a :: t)))
            (t.length + 1) (0 + 1, 0 + 1)).2.2 = true
        rw [hshift]
        exact h2

theorem take_stream_run {α : Type} (f : Nat → α) :
    ∀ (r c : Nat),
      microRun (takeMicro (c + r) (streamSrc f)) (r + 1) (c, c) =
        ((List.range r).map (fun i => f (c + i)),
          (c + r + 1, c + r + 1), true) := by
  intro r
  induction r with
  | zero =>
    intro c
    have hmicro : takeMicro (c + 0) (streamSrc f) (c, c) =
        .halt (c + 1, c + 1) := by
      simp only [takeMicro, streamSrc]
      rw [if_pos (by omega)]
    rw [microRun_halt _ 0 _ _ hmicro]
    simp
  | succ r ih =>
    intro c
    have hlt : ¬ c + 1 > c + (r + 1) := by omega
    have hmicro : takeMicro (c + (r + 1)) (streamSrc f) (c, c) =
        .yld (f c) (c + 1, c + 1) := by
      simp only [takeMicro, streamSrc]
      rw [if_neg hlt]
    rw [microRun_yld _ (r + 1) _ _ _ hmicro]
    have harg : c + (r + 1) = c + 1 + r := by omega
    rw [harg, ih (c + 1)]
    have hmaps : (List.range r).map (fun i => f (c + 1 + i)) =
        (List.range r).map ((fun i => f (c + i)) ∘ Nat.succ) := by
      apply List.map_congr_left
      intro i _
      have h : c + 1 + i = c + Nat.succ i := by omega
      simp only [Function.comp_apply]
      rw [h]
    simp only [List.range_succ_eq_map, List.map_cons, List.map_map,
      Prod.mk.injEq, Nat.add_zero]
    exact ⟨by rw [hmaps], trivial⟩

/-- Claim C3 counterexample: `take(2)` over the infinite parent
`0, 1, 2, ...` yields exactly `[0, 1]`, but draining it advances the
parent's cursor to 3: the body pulls (and discards) a third element from
the parent after the two yielded ones, so `take(k)` does not stop pulling
the parent entirely after yielding its `min(k, length)` elements. -/
theorem take_counterexample :
    (microRun (takeMicro 2 (streamSrc (fun n => n))) 3 (takeInit 0)).1 =
      [0, 1] ∧
    (microRun (takeMicro 2 (streamSrc (fun n => n))) 3 (takeInit 0)).2 =
      ((3, 3), true) ∧
    (3 : Nat) ≠ 2 :=
  ⟨rfl, rfl, by decide⟩

/-- Claim C3 amended: for every parent and every k ≥ 0, `take(k)` yields
exactly the first `min(k, length)` parent elements in order; on an infinite
parent, draining `take(k)` terminates (the generator finishes within `k + 1`
steps) and yields exactly `k` elements, with `k = 0` yielding the empty
sequence — but when drained past its last yielded element it performs one
additional pull on the parent (exactly `k + 1` pulls in total on an
infinite parent) rather than stopping immediately after the yielded
elements; the parent is never drained further than that. -/
theorem take_spec :
    (∀ (α : Type) (l : List α) (k : Nat),
      (microRun (takeMicro k (listSrc l)) (l.length + 1) (takeInit 0)).1 =
        l.take k) ∧
    (∀ (α : Type) (l : List α) (k : Nat),
      (microRun (takeMicro k (listSrc l)) (l.length + 1) (takeInit 0)).2.2 =
        true) ∧
    (∀ (α : Type) (f : Nat → α) (k : Nat),
      microRun (takeMicro k (streamSrc f)) (k + 1) (takeInit 0) =
        ((List.range k).map f, (k + 1, k + 1), true)) ∧
    (∀ (α : Type) (f : Nat → α),
      (microRun (takeMicro 0 (streamSrc f)) 1 (takeInit 0)).1 = []) := by
  have hstream : ∀ (α : Type) (f : Nat → α) (k : Nat),
      microRun (takeMicro k (streamSrc f)) (k + 1) (takeInit 0) =
        ((List.range k).map f, (k + 1, k + 1), true) := by
    intro α f k
    have h := take_stream_run f k 0
    simp only [Nat.zero_add] at h
    exact h
  refine ⟨fun α l k => (take_list_run l k).1,
    fun α l k => (take_list_run l k).2, hstream, ?_⟩
  intro α f
  rw [hstream α f 0]
  rfl

/-! Runs of the `zip` machine. -/

theorem zip_shift {α : Type} (srcL srcR : Src α) :
    ∀ (fuel : Nat) (i j : Nat),
      microRun (zipMicro srcL srcR) fuel (i + 1, j + 1) =
        (fun r => (r.1, (r.2.1.1 + 1, r.2.1.2 + 1), r.2.2))
          (microRun (zipMicro (shiftSrc srcL) (shiftSrc srcR)) fuel (i, j)) := by
  intro fuel
  induction fuel with
  | zero => intro i j; rfl
  | succ fuel ih =>
    intro i j
    have hL : srcL (i + 1) = shiftSrc srcL i := rfl
    have hR : srcR (j + 1) = shiftSrc srcR j := rfl
    cases hLv : shiftSrc srcL i with
    | none =>
      have hm1 : zipMicro srcL srcR (i + 1, j + 1) =
          .halt (i + 1 + 1, j + 1 + 1) := by
        simp only [zipMicro, hL, hLv]
      have hm2 : zipMicro (shiftSrc srcL) (shiftSrc srcR) (i, j) =
          .halt (i + 1, j + 1) := by
        simp only [zipMicro, hLv]
      rw [microRun_halt _ fuel _ _ hm1, microRun_halt _ fuel _ _ hm2]
    | some a =>
      cases hRv : shiftSrc srcR j with
      | none =>
        have hm1 : zipMicro srcL srcR (i + 1, j + 1) =
            .halt (i + 1 + 1, j + 1 + 1) := by
          simp only [zipMicro, hL, hR, hLv, hRv]
        have hm2 : zipMicro (shiftSrc srcL) (shiftSrc srcR) (i, j) =
            .halt (i + 1, j + 1) := by
          simp only [zipMicro, hLv, hRv]
        rw [microRun_halt _ fuel _ _ hm1, microRun_halt _ fuel _ _ hm2]
      | some b =>
        have hm1 : zipMicro srcL srcR (i + 1, j + 1) =
            .yld (a, b) (i + 1 + 1, j + 1 + 1) := by
          simp only [zipMicro, hL, hR, hLv, hRv]
        have hm2 : zipMicro (shiftSrc srcL) (shiftSrc srcR) (i, j) =
            .yld (a, b) (i + 1, j + 1) := by
          simp only [zipMicro, hLv, hRv]
        rw [microRun_yld _ fuel _ _ _ hm1, microRun_yld _ fuel _ _ _ hm2,
          ih (i + 1) (j + 1)]

theorem zip_lockstep {α : Type} (srcL srcR : Src α) :
    ∀ (fuel i : Nat),
      (microRun (zipMicro srcL srcR) fuel (i, i)).2.1.1 =
        (microRun (zipMicro srcL srcR) fuel (i, i)).2.1.2 := by
  intro fuel
  induction fuel with
  | zero => intro i; rfl
  | succ fuel ih =>
    intro i
    cases hLv : srcL i with
    | none =>
      have hm : zipMicro srcL srcR (i, i) = .halt (i + 1, i + 1) := by
        simp only [zipMicro, hLv]
      rw [microRun_halt _ fuel _ _ hm]
    | some a =>
      cases hRv : srcR i with
      | none =>
        have hm : zipMicro srcL srcR (i, i) = .halt (i + 1, i + 1) := by
          simp only [zipMicro, hLv, hRv]
        rw [microRun_halt _ fuel _ _ hm]
      | some b =>
        have hm : zipMicro srcL srcR (i, i) = .yld (a, b) (i + 1, i + 1) := by
          simp only [zipMicro, hLv, hRv]
        rw [microRun_yld _ fuel _ _ _ hm]
        exact ih (i + 1)

theorem zip_list_run {α : Type} :
    ∀ (l r : List α),
      (microRun (zipMicro (listSrc l) (listSrc r))
          (min l.length r.length + 1) (zipInit 0 0)).1 = l.zip r ∧
      (microRun (zipMicro (listSrc l) (listSrc r))
          (min l.length r.length + 1) (zipInit 0 0)).2.2 = true := by
  intro l
  induction l with
  | nil =>
    intro r
    cases r with
    | nil => exact ⟨rfl, rfl⟩
    | cons b u =>
      have hfuel : min (List.length ([] : List α)) (b :: u).length + 1 = 1 := by
        simp
      rw [hfuel]
      exact ⟨rfl, rfl⟩
  | cons a t ih =>
    intro r
    cases r with
    | nil =>
      have hfuel : min (a :: t).length (List.length ([] : List α)) + 1 = 1 := by
        simp
      rw [hfuel]
      exact ⟨rfl, rfl⟩
    | cons b u =>
      have hfuel : min (a :: t).length (b :: u).length + 1 =
          min t.length u.length + 1 + 1 := by
        simp [Nat.succ_min_succ]
      rw [hfuel]
      have hmicro : zipMicro (listSrc (a :: t)) (listSrc (b :: u))
          (zipInit 0 0) = .yld (a, b) (0 + 1, 0 + 1) := rfl
      rw [microRun_yld _ _ _ _ _ hmicro]
      have hshift := zip_shift (listSrc (a :: t)) (listSrc (b :: u))
        (min t.length u.length + 1) 0 0
      rw [shift_listSrc, shift_listSrc] at hshift
      rw [hshift]
      obtain ⟨h1, h2⟩ := ih u
      constructor
      · show (a, b) :: (microRun (zipMicro (listSrc t) (listSrc u))
            (min t.length u.length + 1) (zipInit 0 0)).1 = (a :: t).zip (b :: u)
        rw [h1]
        rfl
      · show (microRun (zipMicro (listSrc t) (listSrc u))
            (min t.length u.length + 1) (zipInit 0 0)).2.2 = true
        exact h2

/-- Claim C4: `zip` yields exactly `min(m, n)` pairs `(left_i, right_i)` in
order (draining it finishes), pulls both sides exactly once per step in
lock-step — starting from equal pull counts the two cursors remain equal
after any run, so the left side is never pulled in a step without the right
side — stops as soon as either side reports exhaustion, and zipping the
5-element sequence `[1,2,3,4,5]` with the infinite sequence `6, 7, 8, ...`
yields exactly the 5 pairs `(1,6) ... (5,10)`. -/
theorem zip_spec :
    (∀ (α : Type) (l r : List α),
      (microRun (zipMicro (listSrc l) (listSrc r))
          (min l.length r.length + 1) (zipInit 0 0)).1 = l.zip r) ∧
    (∀ (α : Type) (l r : List α),
      (microRun (zipMicro (listSrc l) (listSrc r))
          (min l.length r.length + 1) (zipInit 0 0)).2.2 = true) ∧
    (∀ (α : Type) (l r : List α),
      (l.zip r).length = min l.length r.length) ∧
    (∀ (α : Type) (srcL srcR : Src α) (fuel i : Nat),
      (microRun (zipMicro srcL srcR) fuel (i, i)).2.1.1 =
        (microRun (zipMicro srcL srcR) fuel (i, i)).2.1.2) ∧
    microRun (zipMicro (listSrc [1, 2, 3, 4, 5]) (streamSrc (fun n => n + 6)))
        6 (zipInit 0 0) =
      ([(1, 6), (2, 7), (3, 8), (4, 9), (5, 10)], (6, 6), true) :=
  ⟨fun α l r => (zip_list_run l r).1,
    fun α l r => (zip_list_run l r).2,
    fun α l r => List.length_zip l r,
    fun α srcL srcR => zip_lockstep srcL srcR,
    rfl⟩

/-- Claim C10: on the step in which `zip` terminates it still pulls once
from each side: draining the zip of a left sequence of length `m` with a
longer right sequence issues exactly `m + 1` pulls on each side (the final
left pull reports exhaustion while the corresponding right pull produces
the `(m+1)`-th right element, which is discarded), and the yielded pairs
are exactly the `m` lock-step pairs, unaffected by the extra pulls. -/
theorem zip_extra_pull :
    ∀ (α : Type) (l r : List α), l.length < r.length →
      microRun (zipMicro (listSrc l) (listSrc r)) (l.length + 1)
          (zipInit 0 0) =
        (l.zip r, (l.length + 1, l.length + 1), true) := by
  intro α l
  induction l with
  | nil =>
    intro r h
    cases r with
    | nil => exact absurd h (by simp)
    | cons b u => rfl
  | cons a t ih =>
    intro r h
    cases r with
    | nil => exact absurd h (by simp)
    | cons b u =>
      simp only [List.length_cons]
      have hmicro : zipMicro (listSrc (a :: t)) (listSrc (b :: u))
          (zipInit 0 0) = .yld (a, b) (0 + 1, 0 + 1) := rfl
      rw [microRun_yld _ _ _ _ _ hmicro]
      have hshift := zip_shift (listSrc (a :: t)) (listSrc (b :: u))
        (t.length + 1) 0 0
      rw [shift_listSrc, shift_listSrc] at hshift
      rw [hshift]
      have hlt : t.length < u.length := by
        simp only [List.length_cons] at h
        omega
      have hrun := ih u hlt
      show ((a, b) :: (microRun (zipMicro (listSrc t) (listSrc u))
          (t.length + 1) (zipInit 0 0)).1,
        ((microRun (zipMicro (listSrc t) (listSrc u))
          (t.length + 1) (zipInit 0 0)).2.1.1 + 1,
         (microRun (zipMicro (listSrc t) (listSrc u))
          (t.length + 1) (zipInit 0 0)).2.1.2 + 1),
        (microRun (zipMicro (listSrc t) (listSrc u))
          (t.length + 1) (zipInit 0 0)).2.2) = _
      rw [hrun]
      rfl

/-- Witness for claim C10: zipping the 2-element left sequence `[10, 20]`
with the 3-element right sequence `[1, 2, 3]` yields the 2 pairs
`(10,1), (20,2)` while pulling each side exactly 3 times; the third right
element was pulled and discarded. -/
theorem zip_extra_pull_witness :
    microRun (zipMicro (listSrc [10, 20]) (listSrc [1, 2, 3])) 3
        (zipInit 0 0) =
      ([(10, 1), (20, 2)], (3, 3), true) := by
  have h := zip_extra_pull Nat [10, 20] [1, 2, 3] (by decide)
  exact h.trans (by decide)

/-! List denotations: the ordered sequence of elements each method yields
(or the value a terminal returns) on a finite backing sequence, translated
loop-for-loop from `sync.ts` (`namespace Iter`) and `async.ts`
(`namespace AsyncIter`). -/

/-- `yield*` of a list of iterables, in order. -/
def joinAll {α : Type} : List (List α) → List α
  | [] => []
  | x :: rest => x ++ joinAll rest

/-- A resolved JS promise: `await`ing it produces its value. -/
structure Promise (α : Type) : Type where
  await : α

namespace Iter

/-- `Iter.filter`. -/
def filter {α : Type} (predicate : α → Bool) : List α → List α
  | [] => []
  | a :: t => if predicate a then a :: filter predicate t else filter predicate t

/-- `Iter.filterMap`: `undefined` is `Option.none`. -/
def filterMap {α β : Type} (func : α → Option β) : List α → List β
  | [] => []
  | a :: t =>
    match func a with
    | some b => b :: filterMap func t
    | none => filterMap func t

/-- `Iter.map`. -/
def map {α β : Type} (func : α → β) : List α → List β
  | [] => []
  | a :: t => func a :: map func t

/-- `Iter.chain`: the receiver, then each argument iterable in order. -/
def chain {α : Type} (receiver : List α) (next : List (List α)) : List α :=
  receiver ++ joinAll next

/-- `Iter.zip`: pairs in lock-step until either side is exhausted. -/
def zip {α : Type} : List α → List α → List (α × α)
  | [], _ => []
  | _, [] => []
  | a :: t, b :: u => (a, b) :: zip t u

/-- Loop body of `Iter.enumerate` with the current index. -/
def enumerateAux {α : Type} (index : Nat) : List α → List (Nat × α)
  | [] => []
  | a :: t => (index, a) :: enumerateAux (index + 1) t

/-- `Iter.enumerate`: `index` starts at 0. -/
def enumerate {α : Type} (l : List α) : List (Nat × α) := enumerateAux 0 l

/-- Loop body of `Iter.take` with the current count. -/
def takeAux {α : Type} (limit : Nat) (count : Nat) : List α → List α
  | [] => []
  | a :: t => if count + 1 > limit then [] else a :: takeAux limit (count + 1) t

/-- `Iter.take`: `count` starts at 0. -/
def take {α : Type} (limit : Nat) (l : List α) : List α := takeAux limit 0 l

/-- Loop body of `Iter.skip` with the current count. -/
def skipAux {α : Type} (items : Nat) (count : Nat) : List α → List α
  | [] => []
  | a :: t =>
    if count + 1 ≤ items then skipAux items (count + 1) t
    else a :: skipAux items (count + 1) t

/-- `Iter.skip`: `count` starts at 0. -/
def skip {α : Type} (items : Nat) (l : List α) : List α := skipAux items 0 l

/-- `Iter.flat`: one level of flattening. -/
def flat {β : Type} : List (List β) → List β
  | [] => []
  | a :: t => a ++ flat t

/-- `Iter.reduce`: a left fold over the drained elements. -/
def reduce {α X : Type} (func : X → α → X) (initial : X) : List α → X
  | [] => initial
  | a :: t => reduce func (func initial a) t

/-- `Iter.collect`, defined through `reduce` exactly as in the source. -/
def collect {α : Type} (l : List α) : List α :=
  reduce (fun prev curr => prev ++ [curr]) [] l

/-- Loop body of `Iter.count`. -/
def countAux {α : Type} (count : Nat) : List α → Nat
  | [] => count
  | _ :: t => countAux (count + 1) t

/-- `Iter.count`. -/
def count {α : Type} (l : List α) : Nat := countAux 0 l

/-- `Iter.forEach` observed as the ordered trace of arguments the supplied
function is called with. -/
def forEachCalls {α : Type} : List α → List α
  | [] => []
  | a :: t => a :: forEachCalls t

end Iter

namespace AsyncIter

/-- `AsyncIter.filter`: the predicate returns a promise that is awaited. -/
def filter {α : Type} (predicate : α → Promise Bool) : List α → List α
  | [] => []
  | a :: t =>
    if (predicate a).await then a :: filter predicate t else filter predicate t

/-- `AsyncIter.filterSync`. -/
def filterSync {α : Type} (predicate : α → Bool) : List α → List α
  | [] => []
  | a :: t =>
    if predicate a then a :: filterSync predicate t else filterSync predicate t

/-- `AsyncIter.filterMap`: the function's promise is awaited, then compared
against `undefined`. -/
def filterMap {α β : Type} (func : α → Promise (Option β)) : List α → List β
  | [] => []
  | a :: t =>
    match (func a).await with
    | some b => b :: filterMap func t
    | none => filterMap func t

/-- `AsyncIter.filterMapSync`. -/
def filterMapSync {α β : Type} (func : α → Option β) : List α → List β
  | [] => []
  | a :: t =>
    match func a with
    | some b => b :: filterMapSync func t
    | none => filterMapSync func t

/-- `AsyncIter.map`: yields the awaited result of the function. -/
def map {α β : Type} (func : α → Promise β) : List α → List β
  | [] => []
  | a :: t => (func a).await :: map func t

/-- `AsyncIter.mapSync`. -/
def mapSync {α β : Type} (func : α → β) : List α → List β
  | [] => []
  | a :: t => func a :: mapSync func t

/-- `AsyncIter.chain`. -/
def chain {α : Type} (receiver : List α) (next : List (List α)) : List α :=
  receiver ++ joinAll next

/-- `AsyncIter.zip`: the two pulls of one step are joined (`Promise.all`)
before the pair is yielded. -/
def zip {α : Type} : List α → List α → List (α × α)
  | [], _ => []
  | _, [] => []
  | a :: t, b :: u => (a, b) :: zip t u

/-- Loop body of `AsyncIter.enumerate`. -/
def enumerateAux {α : Type} (index : Nat) : List α → List (Nat × α)
  | [] => []
  | a :: t => (index, a) :: enumerateAux (index + 1) t

/-- `AsyncIter.enumerate`. -/
def enumerate {α : Type} (l : List α) : List (Nat × α) := enumerateAux 0 l

/-- Loop body of `AsyncIter.take`. -/
def takeAux {α : Type} (limit : Nat) (count : Nat) : List α → List α
  | [] => []
  | a :: t => if count + 1 > limit then [] else a :: takeAux limit (count + 1) t

/-- `AsyncIter.take`. -/
def take {α : Type} (limit : Nat) (l : List α) : List α := takeAux limit 0 l

/-- Loop body of `AsyncIter.skip`. -/
def skipAux {α : Type} (items : Nat) (count : Nat) : List α → List α
  | [] => []
  | a :: t =>
    if count + 1 ≤ items then skipAux items (count + 1) t
    else a :: skipAux items (count + 1) t

/-- `AsyncIter.skip`. -/
def skip {α : Type} (items : Nat) (l : List α) : List α := skipAux items 0 l

/-- `AsyncIter.reduce` (its reducer function is synchronous in the source). -/
def reduce {α X : Type} (func : X → α → X) (initial : X) : List α → X
  | [] => initial
  | a :: t => reduce func (func initial a) t

/-- `AsyncIter.collect`, through `reduce` as in the source. -/
def collect {α : Type} (l : List α) : List α :=
  reduce (fun prev curr => prev ++ [curr]) [] l

/-- Loop body of `AsyncIter.count`. -/
def countAux {α : Type} (count : Nat) : List α → Nat
  | [] => count
  | _ :: t => countAux (count + 1) t

/-- `AsyncIter.count`. -/
def count {α : Type} (l : List α) : Nat := countAux 0 l

/-- `AsyncIter.forEach` observed as the ordered trace of calls. -/
def forEachCalls {α : Type} : List α → List α
  | [] => []
  | a :: t => a :: forEachCalls t

end AsyncIter

/-! Sync/async equivalence, operator by operator. -/

theorem afilter_eq {α : Type} (predicate : α → Promise Bool) :
    ∀ l : List α,
      AsyncIter.filter predicate l =
        Iter.filter (fun a => (predicate a).await) l := by
  intro l
  induction l with
  | nil => rfl
  | cons a t ih => simp only [AsyncIter.filter, Iter.filter, ih]

theorem afilterSync_eq {α : Type} (predicate : α → Bool) :
    ∀ l : List α, AsyncIter.filterSync predicate l = Iter.filter predicate l := by
  intro l
  induction l with
  | nil => rfl
  | cons a t ih => simp only [AsyncIter.filterSync, Iter.filter, ih]

theorem afilterMap_eq {α β : Type} (func : α → Promise (Option β)) :
    ∀ l : List α,
      AsyncIter.filterMap func l =
        Iter.filterMap (fun a => (func a).await) l := by
  intro l
  induction l with
  | nil => rfl
  | cons a t ih =>
    simp only [AsyncIter.filterMap, Iter.filterMap, ih]

theorem afilterMapSync_eq {α β : Type} (func : α → Option β) :
    ∀ l : List α, AsyncIter.filterMapSync func l = Iter.filterMap func l := by
  intro l
  induction l with
  | nil => rfl
  | cons a t ih => simp only [AsyncIter.filterMapSync, Iter.filterMap, ih]

theorem amap_eq {α β : Type} (func : α → Promise β) :
    ∀ l : List α,
      AsyncIter.map func l = Iter.map (fun a => (func a).await) l := by
  intro l
  induction l with
  | nil => rfl
  | cons a t ih => simp only [AsyncIter.map, Iter.map, ih]

theorem amapSync_eq {α β : Type} (func : α → β) :
    ∀ l : List α, AsyncIter.mapSync func l = Iter.map func l := by
  intro l
  induction l with
  | nil => rfl
  | cons a t ih => simp only [AsyncIter.mapSync, Iter.map, ih]

theorem azip_eq {α : Type} :
    ∀ l r : List α, AsyncIter.zip l r = Iter.zip l r := by
  intro l
  induction l with
  | nil => intro r; cases r <;> rfl
  | cons a t ih =>
    intro r
    cases r with
    | nil => rfl
    | cons b u => simp only [AsyncIter.zip, Iter.zip, ih u]

theorem aenumerateAux_eq {α : Type} :
    ∀ (l : List α) (index : Nat),
      AsyncIter.enumerateAux index l = Iter.enumerateAux index l := by
  intro l
  induction l with
  | nil => intro index; rfl
  | cons a t ih =>
    intro index
    simp only [AsyncIter.enumerateAux, Iter.enumerateAux, ih (index + 1)]

theorem atakeAux_eq {α : Type} (limit : Nat) :
    ∀ (l : List α) (count : Nat),
      AsyncIter.takeAux limit count l = Iter.takeAux limit count l := by
  intro l
  induction l with
  | nil => intro count; rfl
  | cons a t ih =>
    intro count
    simp only [AsyncIter.takeAux, Iter.takeAux, ih (count + 1)]

theorem askipAux_eq {α : Type} (items : Nat) :
    ∀ (l : List α) (count : Nat),
      AsyncIter.skipAux items count l = Iter.skipAux items count l := by
  intro l
  induction l with
  | nil => intro count; rfl
  | cons a t ih =>
    intro count
    simp only [AsyncIter.skipAux, Iter.skipAux, ih (count + 1)]

theorem areduce_eq {α X : Type} (func : X → α → X) :
    ∀ (l : List α) (initial : X),
      AsyncIter.reduce func initial l = Iter.reduce func initial l := by
  intro l
  induction l with
  | nil => intro initial; rfl
  | cons a t ih =>
    intro initial
    simp only [AsyncIter.reduce, Iter.reduce, ih (func initial a)]

theorem acountAux_eq {α : Type} :
    ∀ (l : List α) (c : Nat), AsyncIter.countAux c l = Iter.countAux c l := by
  intro l
  induction l with
  | nil => intro c; rfl
  | cons a t ih =>
    intro c
    simp only [AsyncIter.countAux, Iter.countAux, ih (c + 1)]

theorem aforEachCalls_eq {α : Type} :
    ∀ l : List α, AsyncIter.forEachCalls l = Iter.forEachCalls l := by
  intro l
  induction l with
  | nil => rfl
  | cons a t ih => simp only [AsyncIter.forEachCalls, Iter.forEachCalls, ih]

/-- Claim C2: on every finite backing sequence, each operator present on
both wrappers — filter, filterMap, map (in both their suspending and
synchronous async variants), chain, zip, enumerate, take, skip, and the
terminals collect, reduce, count, forEach (observed as its ordered call
trace) — produces on `AsyncIter` exactly the same ordered result as on
`Iter`; a suspending function behaves exactly like its awaited synchronous
counterpart. -/
theorem async_matches_sync :
    (∀ (α : Type) (predicate : α → Promise Bool) (l : List α),
      AsyncIter.filter predicate l =
        Iter.filter (fun a => (predicate a).await) l) ∧
    (∀ (α : Type) (predicate : α → Bool) (l : List α),
      AsyncIter.filterSync predicate l = Iter.filter predicate l) ∧
    (∀ (α β : Type) (func : α → Promise (Option β)) (l : List α),
      AsyncIter.filterMap func l =
        Iter.filterMap (fun a => (func a).await) l) ∧
    (∀ (α β : Type) (func : α → Option β) (l : List α),
      AsyncIter.filterMapSync func l = Iter.filterMap func l) ∧
    (∀ (α β : Type) (func : α → Promise β) (l : List α),
      AsyncIter.map func l = Iter.map (fun a => (func a).await) l) ∧
    (∀ (α β : Type) (func : α → β) (l : List α),
      AsyncIter.mapSync func l = Iter.map func l) ∧
    (∀ (α : Type) (receiver : List α) (next : List (List α)),
      AsyncIter.chain receiver next = Iter.chain receiver next) ∧
    (∀ (α : Type) (l r : List α), AsyncIter.zip l r = Iter.zip l r) ∧
    (∀ (α : Type) (l : List α), AsyncIter.enumerate l = Iter.enumerate l) ∧
    (∀ (α : Type) (limit : Nat) (l : List α),
      AsyncIter.take limit l = Iter.take limit l) ∧
    (∀ (α : Type) (items : Nat) (l : List α),
      AsyncIter.skip items l = Iter.skip items l) ∧
    (∀ (α : Type) (l : List α), AsyncIter.collect l = Iter.collect l) ∧
    (∀ (α X : Type) (func : X → α → X) (initial : X) (l : List α),
      AsyncIter.reduce func initial l = Iter.reduce func initial l) ∧
    (∀ (α : Type) (l : List α), AsyncIter.count l = Iter.count l) ∧
    (∀ (α : Type) (l : List α),
      AsyncIter.forEachCalls l = Iter.forEachCalls l) :=
  ⟨fun α p l => afilter_eq p l,
    fun α p l => afilterSync_eq p l,
    fun α β f l => afilterMap_eq f l,
    fun α β f l => afilterMapSync_eq f l,
    fun α β f l => amap_eq f l,
    fun α β f l => amapSync_eq f l,
    fun α receiver next => rfl,
    fun α l r => azip_eq l r,
    fun α l => aenumerateAux_eq l 0,
    fun α limit l => atakeAux_eq limit l 0,
    fun α items l => askipAux_eq items l 0,
    fun α l => areduce_eq (fun prev curr => prev ++ [curr]) l [],
    fun α X f initial l => areduce_eq f l initial,
    fun α l => acountAux_eq l 0,
    fun α l => aforEachCalls_eq l⟩

/-! Facts about the terminal operations. -/

theorem reduce_append {α : Type} :
    ∀ (l : List α) (acc : List α),
      Iter.reduce (fun prev curr => prev ++ [curr]) acc l = acc ++ l := by
  intro l
  induction l with
  | nil => intro acc; simp [Iter.reduce]
  | cons a t ih =>
    intro acc
    simp only [Iter.reduce, ih (acc ++ [a]), List.append_assoc,
      List.singleton_append]

theorem collect_eq {α : Type} (l : List α) : Iter.collect l = l := by
  simp [Iter.collect, reduce_append]

theorem skipAux_eq_drop {α : Type} (items : Nat) :
    ∀ (l : List α) (count : Nat),
      Iter.skipAux items count l = l.drop (items - count) := by
  intro l
  induction l with
  | nil => intro count; simp [Iter.skipAux]
  | cons a t ih =>
    intro count
    by_cases h : count + 1 ≤ items
    · have hd : items - count = (items - (count + 1)) + 1 := by omega
      simp only [Iter.skipAux, if_pos h, ih (count + 1), hd, List.drop_succ_cons]
    · have hd : items - count = 0 := by omega
      have hd' : items - (count + 1) = 0 := by omega
      simp only [Iter.skipAux, if_neg h, ih (count + 1), hd, hd',
        List.drop_zero]

/-- Claim C5: `chain` yields all elements of the receiver, then all
elements of each additional sequence in argument order, each consumed in
full before the next; so `chain(a, b, c).collect()` is the receiver's
collect concatenated with `a.collect()`, `b.collect()` and `c.collect()`
in that order, and in general with the collects of every argument. -/
theorem chain_collect :
    (∀ (α : Type) (receiver : List α) (next : List (List α)),
      Iter.collect (Iter.chain receiver next) =
        Iter.collect receiver ++ joinAll (next.map Iter.collect)) ∧
    (∀ (α : Type) (receiver a b c : List α),
      Iter.collect (Iter.chain receiver [a, b, c]) =
        Iter.collect receiver ++ Iter.collect a ++ Iter.collect b ++
          Iter.collect c) := by
  constructor
  · intro α receiver next
    have hmap : next.map Iter.collect = next := by
      have h : ∀ x ∈ next, Iter.collect x = x := fun x _ => collect_eq x
      simp [List.map_congr_left h]
    rw [collect_eq, collect_eq, hmap, Iter.chain]
  · intro α receiver a b c
    simp [collect_eq, Iter.chain, joinAll, List.append_assoc]

/-- Claim C6: `filterMap(f)` yields `f(item)` for every item whose result
is not the absent sentinel, preserving source order (it agrees with the
standard `List.filterMap`); on 1..10 with `f(x) = absent` for even `x` and
`x*2` otherwise, collect returns `[2, 6, 10, 14, 18]`. -/
theorem filterMap_spec :
    (∀ (α β : Type) (func : α → Option β) (l : List α),
      Iter.filterMap func l = List.filterMap func l) ∧
    Iter.collect (Iter.filterMap
        (fun x : Nat => if x % 2 == 0 then none else some (x * 2))
        [1, 2, 3, 4, 5, 6, 7, 8, 9, 10]) = [2, 6, 10, 14, 18] := by
  constructor
  · intro α β func l
    induction l with
    | nil => rfl
    | cons a t ih =>
      cases h : func a with
      | none => simp [Iter.filterMap, List.filterMap_cons, h, ih]
      | some b => simp [Iter.filterMap, List.filterMap_cons, h, ih]
  · decide

/-- Claim C7: `skip(n)` discards the first `n` elements pulled from the
parent and yields the rest in order: for `n ≤ length`, the first `n`
elements of the original collect concatenated with `skip(n).collect()`
equal the original collect. -/
theorem skip_prefix (α : Type) (l : List α) (n : Nat) (h : n ≤ l.length) :
    l.take n ++ Iter.collect (Iter.skip n l) = Iter.collect l := by
  rw [collect_eq, collect_eq, Iter.skip, skipAux_eq_drop]
  simp [List.take_append_drop]

/-- Witness for claim C7: on `[1, 2, 3, 4, 5]` with `n = 2`, the first two
elements `[1, 2]` concatenated with `skip(2).collect() = [3, 4, 5]` give
back the original sequence. -/
theorem skip_prefix_witness :
    [1, 2, 3, 4, 5].take 2 ++ Iter.collect (Iter.skip 2 [1, 2, 3, 4, 5]) =
      Iter.collect [1, 2, 3, 4, 5] :=
  skip_prefix Nat [1, 2, 3, 4, 5] 2 (by decide)

/-! Failure propagation.  A supplied function that can throw (or, in the
async case, return a promise that rejects) is modelled with `Except`; none
of the wrappers contain a catch, so the draining loop stops at the first
failing call.  Each drain below returns the elements the chain had yielded
before the failure together with the propagated failure, translated from
the corresponding loop in the source. -/

namespace Iter

/-- Draining `map(func).collect()` when `func` may throw. -/
def mapDrain {α β ε : Type} (func : α → Except ε β) :
    List α → List β × Option ε
  | [] => ([], none)
  | a :: t =>
    match func a with
    | .error e => ([], some e)
    | .ok b =>
      let r := mapDrain func t
      (b :: r.1, r.2)

/-- Draining `filter(predicate).collect()` when `predicate` may throw. -/
def filterDrain {α ε : Type} (predicate : α → Except ε Bool) :
    List α → List α × Option ε
  | [] => ([], none)
  | a :: t =>
    match predicate a with
    | .error e => ([], some e)
    | .ok true =>
      let r := filterDrain predicate t
      (a :: r.1, r.2)
    | .ok false => filterDrain predicate t

/-- Draining `filterMap(func).collect()` when `func` may throw. -/
def filterMapDrain {α β ε : Type} (func : α → Except ε (Option β)) :
    List α → List β × Option ε
  | [] => ([], none)
  | a :: t =>
    match func a with
    | .error e => ([], some e)
    | .ok (some b) =>
      let r := filterMapDrain func t
      (b :: r.1, r.2)
    | .ok none => filterMapDrain func t

/-- `reduce` when the reducer may throw: either the fold's value or the
first failure. -/
def reduceDrain {α X ε : Type} (func : X → α → Except ε X) (initial : X) :
    List α → Except ε X
  | [] => .ok initial
  | a :: t =>
    match func initial a with
    | .error e => .error e
    | .ok acc => reduceDrain func acc t

/-- `forEach` when the supplied function may throw: the items successfully
processed before the failure, and the failure. -/
def forEachDrain {α ε : Type} (func : α → Except ε Unit) :
    List α → List α × Option ε
  | [] => ([], none)
  | a :: t =>
    match func a with
    | .error e => ([], some e)
    | .ok _ =>
      let r := forEachDrain func t
      (a :: r.1, r.2)

end Iter

namespace AsyncIter

/-- Draining the async `map(func).collect()` when the promise returned by
`func` may reject. -/
def mapDrain {α β ε : Type} (func : α → Except ε β) :
    List α → List β × Option ε
  | [] => ([], none)
  | a :: t =>
    match func a with
    | .error e => ([], some e)
    | .ok b =>
      let r := mapDrain func t
      (b :: r.1, r.2)

end AsyncIter

theorem mapDrain_prop {α β ε : Type} (func : α → Except ε β) :
    ∀ (l₁ : List α) (x : α) (l₂ : List α) (e : ε),
      (∀ a ∈ l₁, ∃ b, func a = .ok b) → func x = .error e →
      Iter.mapDrain func (l₁ ++ x :: l₂) =
        ((Iter.mapDrain func l₁).1, some e) := by
  intro l₁
  induction l₁ with
  | nil =>
    intro x l₂ e _ hx
    simp [Iter.mapDrain, hx]
  | cons a t ih =>
    intro x l₂ e hok hx
    obtain ⟨b, hb⟩ := hok a (by simp)
    have ht : ∀ a ∈ t, ∃ b, func a = .ok b := fun a ha => hok a (by simp [ha])
    simp [Iter.mapDrain, hb, ih x l₂ e ht hx]

theorem amapDrain_prop {α β ε : Type} (func : α → Except ε β) :
    ∀ (l₁ : List α) (x : α) (l₂ : List α) (e : ε),
      (∀ a ∈ l₁, ∃ b, func a = .ok b) → func x = .error e →
      AsyncIter.mapDrain func (l₁ ++ x :: l₂) =
        ((AsyncIter.mapDrain func l₁).1, some e) := by
  intro l₁
  induction l₁ with
  | nil =>
    intro x l₂ e _ hx
    simp [AsyncIter.mapDrain, hx]
  | cons a t ih =>
    intro x l₂ e hok hx
    obtain ⟨b, hb⟩ := hok a (by simp)
    have ht : ∀ a ∈ t, ∃ b, func a = .ok b := fun a ha => hok a (by simp [ha])
    simp [AsyncIter.mapDrain, hb, ih x l₂ e ht hx]

theorem filterDrain_prop {α ε : Type} (predicate : α → Except ε Bool) :
    ∀ (l₁ : List α) (x : α) (l₂ : List α) (e : ε),
      (∀ a ∈ l₁, ∃ b, predicate a = .ok b) → predicate x = .error e →
      Iter.filterDrain predicate (l₁ ++ x :: l₂) =
        ((Iter.filterDrain predicate l₁).1, some e) := by
  intro l₁
  induction l₁ with
  | nil =>
    intro x l₂ e _ hx
    simp [Iter.filterDrain, hx]
  | cons a t ih =>
    intro x l₂ e hok hx
    obtain ⟨b, hb⟩ := hok a (by simp)
    have ht : ∀ a ∈ t, ∃ b, predicate a = .ok b :=
      fun a ha => hok a (by simp [ha])
    cases b with
    | true => simp [Iter.filterDrain, hb, ih x l₂ e ht hx]
    | false => simp [Iter.filterDrain, hb, ih x l₂ e ht hx]

theorem filterMapDrain_prop {α β ε : Type} (func : α → Except ε (Option β)) :
    ∀ (l₁ : List α) (x : α) (l₂ : List α) (e : ε),
      (∀ a ∈ l₁, ∃ b, func a = .ok b) → func x = .error e →
      Iter.filterMapDrain func (l₁ ++ x :: l₂) =
        ((Iter.filterMapDrain func l₁).1, some e) := by
  intro l₁
  induction l₁ with
  | nil =>
    intro x l₂ e _ hx
    simp [Iter.filterMapDrain, hx]
  | cons a t ih =>
    intro x l₂ e hok hx
    obtain ⟨b, hb⟩ := hok a (by simp)
    have ht : ∀ a ∈ t, ∃ b, func a = .ok b := fun a ha => hok a (by simp [ha])
    cases b with
    | some v => simp [Iter.filterMapDrain, hb, ih x l₂ e ht hx]
    | none => simp [Iter.filterMapDrain, hb, ih x l₂ e ht hx]

theorem reduceDrain_prop {α X ε : Type} (func : X → α → Except ε X) :
    ∀ (l₁ : List α) (initial : X) (x : α) (l₂ : List α) (acc : X) (e : ε),
      Iter.reduceDrain func initial l₁ = .ok acc → func acc x = .error e →
      Iter.reduceDrain func initial (l₁ ++ x :: l₂) = .error e := by
  intro l₁
  induction l₁ with
  | nil =>
    intro initial x l₂ acc e hacc hx
    simp only [Iter.reduceDrain, Except.ok.injEq] at hacc
    subst hacc
    simp [Iter.reduceDrain, hx]
  | cons a t ih =>
    intro initial x l₂ acc e hacc hx
    cases hfa : func initial a with
    | error e' => simp [Iter.reduceDrain, hfa] at hacc
    | ok acc' =>
      simp only [Iter.reduceDrain, hfa] at hacc
      simp [Iter.reduceDrain, hfa, ih acc' x l₂ acc e hacc hx]

theorem forEachDrain_prop {α ε : Type} (func : α → Except ε Unit) :
    ∀ (l₁ : List α) (x : α) (l₂ : List α) (e : ε),
      (∀ a ∈ l₁, func a = .ok ()) → func x = .error e →
      Iter.forEachDrain func (l₁ ++ x :: l₂) = (l₁, some e) := by
  intro l₁
  induction l₁ with
  | nil =>
    intro x l₂ e _ hx
    simp [Iter.forEachDrain, hx]
  | cons a t ih =>
    intro x l₂ e hok hx
    have ha : func a = .ok () := hok a (by simp)
    have ht : ∀ a ∈ t, func a = .ok () := fun a ha' => hok a (by simp [ha'])
    simp [Iter.forEachDrain, ha, ih x l₂ e ht hx]

/-- Claim C8: when a function supplied to map, filter, filterMap, reduce or
forEach fails on some element, no wrapper catches or recovers it: the
failure propagates out of the draining operation (in the async case, as
the rejection settling the drain, shown for `map`), the elements already
yielded before the failure are kept exactly as they were, and no element
after the failing one is processed or produced. -/
theorem failure_propagates :
    (∀ (α β ε : Type) (func : α → Except ε β) (l₁ : List α) (x : α)
        (l₂ : List α) (e : ε),
      (∀ a ∈ l₁, ∃ b, func a = .ok b) → func x = .error e →
      Iter.mapDrain func (l₁ ++ x :: l₂) =
        ((Iter.mapDrain func l₁).1, some e)) ∧
    (∀ (α ε : Type) (predicate : α → Except ε Bool) (l₁ : List α) (x : α)
        (l₂ : List α) (e : ε),
      (∀ a ∈ l₁, ∃ b, predicate a = .ok b) → predicate x = .error e →
      Iter.filterDrain predicate (l₁ ++ x :: l₂) =
        ((Iter.filterDrain predicate l₁).1, some e)) ∧
    (∀ (α β ε : Type) (func : α → Except ε (Option β)) (l₁ : List α) (x : α)
        (l₂ : List α) (e : ε),
      (∀ a ∈ l₁, ∃ b, func a = .ok b) → func x = .error e →
      Iter.filterMapDrain func (l₁ ++ x :: l₂) =
        ((Iter.filterMapDrain func l₁).1, some e)) ∧
    (∀ (α X ε : Type) (func : X → α → Except ε X) (l₁ : List α) (initial : X)
        (x : α) (l₂ : List α) (acc : X) (e : ε),
      Iter.reduceDrain func initial l₁ = .ok acc → func acc x = .error e →
      Iter.reduceDrain func initial (l₁ ++ x :: l₂) = .error e) ∧
    (∀ (α ε : Type) (func : α → Except ε Unit) (l₁ : List α) (x : α)
        (l₂ : List α) (e : ε),
      (∀ a ∈ l₁, func a = .ok ()) → func x = .error e →
      Iter.forEachDrain func (l₁ ++ x :: l₂) = (l₁, some e)) ∧
    (∀ (α β ε : Type) (func : α → Except ε β) (l₁ : List α) (x : α)
        (l₂ : List α) (e : ε),
      (∀ a ∈ l₁, ∃ b, func a = .ok b) → func x = .error e →
      AsyncIter.mapDrain func (l₁ ++ x :: l₂) =
        ((AsyncIter.mapDrain func l₁).1, some e)) :=
  ⟨fun α β ε func l₁ x l₂ e => mapDrain_prop func l₁ x l₂ e,
    fun α ε p l₁ x l₂ e => filterDrain_prop p l₁ x l₂ e,
    fun α β ε func l₁ x l₂ e => filterMapDrain_prop func l₁ x l₂ e,
    fun α X ε func l₁ initial x l₂ acc e =>
      reduceDrain_prop func l₁ initial x l₂ acc e,
    fun α ε func l₁ x l₂ e => forEachDrain_prop func l₁ x l₂ e,
    fun α β ε func l₁ x l₂ e => amapDrain_prop func l₁ x l₂ e⟩

/-- Witness for claim C8: over `[1, 2, 3, 4]` with functions that fail on
the element 3, each drain keeps exactly what was produced before the
failure, reports the failure, and produces nothing from the suffix. -/
theorem failure_propagates_witness :
    Iter.mapDrain
        (fun n : Nat => if n = 3 then Except.error "boom"
          else Except.ok (n * 2)) [1, 2, 3, 4] = ([2, 4], some "boom") ∧
    Iter.filterDrain
        (fun n : Nat => if n = 3 then Except.error "boom"
          else Except.ok (n % 2 == 0)) [1, 2, 3, 4] = ([2], some "boom") ∧
    Iter.filterMapDrain
        (fun n : Nat => if n = 3 then Except.error "boom"
          else Except.ok (some n)) [1, 2, 3, 4] = ([1, 2], some "boom") ∧
    Iter.reduceDrain
        (fun acc n : Nat => if n = 3 then Except.error "boom"
          else Except.ok (acc + n)) 0 [1, 2, 3, 4] = Except.error "boom" ∧
    Iter.forEachDrain
        (fun n : Nat => if n = 3 then Except.error "boom"
          else Except.ok ()) [1, 2, 3, 4] = ([1, 2], some "boom") ∧
    AsyncIter.mapDrain
        (fun n : Nat => if n = 3 then Except.error "boom"
          else Except.ok (n * 2)) [1, 2, 3, 4] = ([2, 4], some "boom") := by
  refine ⟨?_, ?_, ?_, ?_, ?_, ?_⟩
  · exact failure_propagates.1 Nat Nat String _ [1, 2] 3 [4] "boom"
      (by intro a ha; simp at ha; rcases ha with rfl | rfl
          · exact ⟨2, rfl⟩
          · exact ⟨4, rfl⟩) rfl
  · exact failure_propagates.2.1 Nat String _ [1, 2] 3 [4] "boom"
      (by intro a ha; simp at ha; rcases ha with rfl | rfl
          · exact ⟨false, rfl⟩
          · exact ⟨true, rfl⟩) rfl
  · exact failure_propagates.2.2.1 Nat Nat String _ [1, 2] 3 [4] "boom"
      (by intro a ha; simp at ha; rcases ha with rfl | rfl
          · exact ⟨some 1, rfl⟩
          · exact ⟨some 2, rfl⟩) rfl
  · exact failure_propagates.2.2.2.1 Nat Nat String _ [1, 2] 0 3 [4] 3 "boom"
      rfl rfl
  · exact failure_propagates.2.2.2.2.1 Nat String _ [1, 2] 3 [4] "boom"
      (by intro a ha; simp at ha; rcases ha with rfl | rfl
          · exact rfl
          · exact rfl) rfl
  · exact failure_propagates.2.2.2.2.2 Nat Nat String _ [1, 2] 3 [4] "boom"
      (by intro a ha; simp at ha; rcases ha with rfl | rfl
          · exact ⟨2, rfl⟩
          · exact ⟨4, rfl⟩) rfl

end Iterext
